import Mathlib

/-!
Verification of the fixed-point format-propagation library (`fixedpoint.py`).

The embedding models the two classes of the source:

* `prop`  — the format propagator (`class prop`): a fixed-point format
  `(word_length, integer_length, signed)` with derived extremes and the
  operations `abs`, `neg`, `sqr`, `add`, `sub`, `mul`.
* `q`     — the quantizer (`class q`): the same three fields plus the
  decoder `float`.

Real values are modelled exactly as rationals (`ℚ`): every quantity the
source manipulates is a dyadic rational, and the source takes care
(`math.ldexp`, integer powers) to compute them exactly.  The
`math.log(x)/math.log(2)` computation of `_create_obj`, followed by the
exact-power-of-two adjustment and `ceil`, is modelled by executable
integer base-2 logarithms on `ℚ`:

* after the adjustment, `ceil` of the max-side logarithm is the least
  `k` with `max_value < 2^k` (`clog2s`);
* `ceil` of the min-side logarithm is the least `k` with
  `-min_value ≤ 2^k` (`clog2w`).

Both Python constructors raise `ValueError` when `word_length < 1`, and
`_create_obj` raises through `math.log` on a non-positive argument;
fallible code is modelled with `Except String`.
-/

namespace Fixedpoint

/-- Floor base-2 logarithm on `ℕ` by fuel-indexed structural recursion
(kernel-reducible, unlike well-founded definitions). -/
def log2F : Nat → Nat → Nat
  | 0, _ => 0
  | f + 1, n => if 2 ≤ n then log2F f (n / 2) + 1 else 0

/-- Floor base-2 logarithm of a positive natural number. -/
def natFloorLog2 (n : Nat) : Nat := log2F n n

/-- The value `flog2Diff q` approximates `log2 q` for `q > 0` within one:
`2 ^ (flog2Diff q - 1) < q < 2 ^ (flog2Diff q + 1)`. -/
def flog2Diff (r : ℚ) : ℤ :=
  (natFloorLog2 r.num.toNat : ℤ) - (natFloorLog2 r.den : ℤ)

/-- The least `k : ℤ` with `r < 2 ^ k` (for `r > 0`).  This is the value
the source computes on the max side of `_create_obj`: the real
`log2 max_value`, bumped by one when it is an exact integer, then
rounded up. -/
def clog2s (r : ℚ) : ℤ :=
  if r < 2 ^ flog2Diff r then flog2Diff r else flog2Diff r + 1

/-- The least `k : ℤ` with `r ≤ 2 ^ k` (for `r > 0`).  This is
`ceil (log2 r)`, the value the source computes on the min side of
`_create_obj`. -/
def clog2w (r : ℚ) : ℤ :=
  if r ≤ 2 ^ flog2Diff r then flog2Diff r else flog2Diff r + 1

/-- A fixed-point format: `class prop` of the source.  `word_length` is
the total bit count (sign bit included), `integer_length` the bits left
of the binary point (sign bit excluded). -/
structure prop where
  word_length : ℤ
  integer_length : ℤ
  signed : Bool
deriving DecidableEq

/-- The sign bit as an integer, as Python uses `self.signed` in
arithmetic (`True = 1`, `False = 0`). -/
def prop.sbit (p : prop) : ℤ := if p.signed then 1 else 0

/-- Derived `fractional_length`, recomputed inline throughout the source as
`word_length - signed - integer_length`. -/
def prop.fl (p : prop) : ℤ := p.word_length - p.sbit - p.integer_length

/-- Constructor `prop.__init__`: rejects `word_length < 1`, stores the fields
verbatim. -/
def mkProp (word_length integer_length : ℤ) (signed : Bool) :
    Except String prop :=
  if word_length < 1 then Except.error "Word length must be >= 1"
  else Except.ok ⟨word_length, integer_length, signed⟩

/-- Source `prop.max`: `math.ldexp(2 ** (word_length - signed) - 1,
-fractional_length)`, the most positive representable value. -/
def prop.max (p : prop) : ℚ :=
  (2 ^ (p.word_length - p.sbit) - 1) * 2 ^ (-p.fl)

/-- Source `prop.min`: `-2 ** integer_length` when signed, else `0`. -/
def prop.min (p : prop) : ℚ :=
  if p.signed then -(2 ^ p.integer_length) else 0

/-- Source `prop.smallest`: `2 ** -fractional_length`. -/
def prop.smallest (p : prop) : ℚ := 2 ^ (-p.fl)

/-- Source `prop.format`: `"2s<W, I>"` when signed, `"us<W, I>"` otherwise
(note the space after the comma, as in the doctests of the source). -/
def prop.format (p : prop) : String :=
  let msg := "<" ++ toString p.word_length ++ ", " ++
    toString p.integer_length ++ ">"
  if p.signed then "2s" ++ msg else "us" ++ msg

/-- Source `prop._create_obj`: converts a dynamic range and a fractional length
into a format.  `math.log` on a non-positive argument raises, modelled by
the two `math domain error` branches; the final `prop(...)` call re-runs
the `word_length < 1` check. -/
def create_obj (max_value min_value : ℚ) (fractional_length : ℤ) :
    Except String prop :=
  if max_value ≤ 0 then Except.error "math domain error"
  else if 0 < min_value then Except.error "math domain error"
  else
    let signed : Bool := if min_value = 0 then false else true
    let log2_max_side : ℤ := clog2s max_value
    let log2_min_side : ℤ :=
      if min_value = 0 then -128 else clog2w (-min_value)
    let integer_length : ℤ := max log2_max_side log2_min_side
    let word_length : ℤ :=
      (if signed then 1 else 0) + integer_length + fractional_length
    mkProp word_length integer_length signed

/-- Source `prop.__abs__`. -/
def prop.abs (p : prop) : Except String prop :=
  if p.signed then mkProp p.word_length (p.integer_length + 1) false
  else Except.ok p

/-- Source `prop.__neg__`. -/
def prop.neg (p : prop) : Except String prop :=
  if p.signed then
    mkProp (p.word_length + 1) (p.integer_length + 1) p.signed
  else mkProp (p.word_length + 1) p.integer_length true

/-- Source `prop.sqr`. -/
def prop.sqr (p : prop) : Except String prop :=
  let integer_length : ℤ :=
    2 * p.integer_length + (if p.signed then 1 else 0)
  let fractional_length : ℤ :=
    2 * (p.word_length - p.sbit - p.integer_length)
  mkProp (integer_length + fractional_length) integer_length false

/-- Source `prop.__add__`. -/
def prop.add (x other : prop) : Except String prop :=
  create_obj (x.max + other.max) (x.min + other.min)
    (Max.max x.fl other.fl)

/-- Source `prop.__sub__`. -/
def prop.sub (x other : prop) : Except String prop :=
  create_obj (x.max - other.min) (x.min - other.max)
    (Max.max x.fl other.fl)

/-- Source `prop.__mul__`. -/
def prop.mul (x other : prop) : Except String prop :=
  create_obj (Max.max (x.max * other.max) (x.min * other.min))
    (Min.min (x.max * other.min) (x.min * other.max)) (x.fl + other.fl)

/-- The quantizer format: `class q` of the source. -/
structure q where
  word_length : ℤ
  integer_length : ℤ
  signed : Bool
deriving DecidableEq

/-- Constructor `q.__init__`: rejects `word_length < 1`, stores the fields
verbatim. -/
def mkQ (word_length integer_length : ℤ) (signed : Bool) :
    Except String q :=
  if word_length < 1 then Except.error "Word length must be >= 1"
  else Except.ok ⟨word_length, integer_length, signed⟩

/-- Source `q.float`: decodes a raw bit pattern to the represented value. -/
def q.float (f : q) (uint_val : ℤ) : Except String ℚ :=
  if uint_val < 0 then Except.error "Value must be non-negative!"
  else if (2 : ℚ) ^ f.word_length - 1 < (uint_val : ℚ) then
    Except.error "Value exceeds the largest raw pattern"
  else
    let v : ℚ :=
      if f.signed ∧ (2 : ℚ) ^ (f.word_length - 1) ≤ (uint_val : ℚ) then
        (uint_val : ℚ) - 2 ^ f.word_length
      else (uint_val : ℚ)
    let fractional : ℤ :=
      if f.signed then f.word_length - 1 - f.integer_length
      else f.word_length - f.integer_length
    Except.ok (v * 2 ^ (-fractional))

/-! ### Properties of the integer base-2 logarithms -/

theorem log2F_spec (f : ℕ) : ∀ n : ℕ, 1 ≤ n → n ≤ f →
    2 ^ log2F f n ≤ n ∧ n < 2 ^ (log2F f n + 1) := by
  induction f with
  | zero => intro n h1 h2; omega
  | succ f ih =>
    intro n h1 hf
    by_cases h2 : 2 ≤ n
    · have hl : log2F (f + 1) n = log2F f (n / 2) + 1 := by
        simp [log2F, h2]
      obtain ⟨ha, hb⟩ := ih (n / 2) (by omega) (by omega)
      rw [hl]
      simp only [pow_succ] at *
      omega
    · have hl : log2F (f + 1) n = 0 := by simp [log2F, h2]
      rw [hl]
      simp only [pow_succ, pow_zero]
      omega

theorem natFloorLog2_spec (n : ℕ) (h : 1 ≤ n) :
    2 ^ natFloorLog2 n ≤ n ∧ n < 2 ^ (natFloorLog2 n + 1) :=
  log2F_spec n n h le_rfl

theorem flog2Diff_sandwich (r : ℚ) (hr : 0 < r) :
    2 ^ (flog2Diff r - 1) < r ∧ r < 2 ^ (flog2Diff r + 1) := by
  have hnum : 0 < r.num := Rat.num_pos.mpr hr
  set N : ℕ := r.num.toNat with hN
  set D : ℕ := r.den with hD
  have hNpos : 1 ≤ N := by omega
  have hDpos : 1 ≤ D := r.pos
  obtain ⟨ha1, ha2⟩ := natFloorLog2_spec N hNpos
  obtain ⟨hb1, hb2⟩ := natFloorLog2_spec D hDpos
  set a : ℕ := natFloorLog2 N
  set b : ℕ := natFloorLog2 D
  set d : ℤ := flog2Diff r with hdd
  have hd : d = (a : ℤ) - (b : ℤ) := rfl
  have hQD : (0 : ℚ) < (D : ℚ) := by exact_mod_cast hDpos
  have htn : ((r.num.toNat : ℤ)) = r.num := Int.toNat_of_nonneg hnum.le
  have hr_eq : r = (N : ℚ) / (D : ℚ) := by
    rw [← Rat.num_div_den r, hN, hD]
    congr 1
    exact_mod_cast htn.symm
  have hne : (2 : ℚ) ≠ 0 := two_ne_zero
  have ha1' : (2 : ℚ) ^ (a : ℤ) ≤ (N : ℚ) := by
    rw [zpow_natCast]; exact_mod_cast ha1
  have ha2' : (N : ℚ) < (2 : ℚ) ^ ((a : ℤ) + 1) := by
    rw [show (a : ℤ) + 1 = ((a + 1 : ℕ) : ℤ) by push_cast; ring,
      zpow_natCast]
    exact_mod_cast ha2
  have hb1' : (2 : ℚ) ^ (b : ℤ) ≤ (D : ℚ) := by
    rw [zpow_natCast]; exact_mod_cast hb1
  have hb2' : (D : ℚ) < (2 : ℚ) ^ ((b : ℤ) + 1) := by
    rw [show (b : ℤ) + 1 = ((b + 1 : ℕ) : ℤ) by push_cast; ring,
      zpow_natCast]
    exact_mod_cast hb2
  constructor
  · rw [hr_eq, lt_div_iff₀ hQD]
    calc (2 : ℚ) ^ (d - 1) * (D : ℚ)
        < 2 ^ (d - 1) * 2 ^ ((b : ℤ) + 1) :=
          mul_lt_mul_of_pos_left hb2' (zpow_pos two_pos _)
      _ = 2 ^ (d - 1 + ((b : ℤ) + 1)) := (zpow_add₀ hne _ _).symm
      _ = 2 ^ (a : ℤ) := by rw [hd]; ring_nf
      _ ≤ (N : ℚ) := ha1'
  · rw [hr_eq, div_lt_iff₀ hQD]
    calc (N : ℚ) < (2 : ℚ) ^ ((a : ℤ) + 1) := ha2'
      _ = 2 ^ (d + 1 + (b : ℤ)) := by rw [hd]; ring_nf
      _ = 2 ^ (d + 1) * 2 ^ (b : ℤ) := zpow_add₀ hne _ _
      _ ≤ 2 ^ (d + 1) * (D : ℚ) :=
          mul_le_mul_of_nonneg_left hb1' (zpow_pos two_pos _).le

theorem clog2s_spec (r : ℚ) (hr : 0 < r) :
    2 ^ (clog2s r - 1) ≤ r ∧ r < 2 ^ clog2s r := by
  obtain ⟨h1, h2⟩ := flog2Diff_sandwich r hr
  unfold clog2s
  by_cases h : r < 2 ^ flog2Diff r
  · rw [if_pos h]
    exact ⟨h1.le, h⟩
  · rw [if_neg h]
    refine ⟨?_, h2⟩
    rw [show flog2Diff r + 1 - 1 = flog2Diff r by ring]
    exact not_lt.mp h

theorem clog2w_spec (r : ℚ) (hr : 0 < r) :
    2 ^ (clog2w r - 1) < r ∧ r ≤ 2 ^ clog2w r := by
  obtain ⟨h1, h2⟩ := flog2Diff_sandwich r hr
  unfold clog2w
  by_cases h : r ≤ 2 ^ flog2Diff r
  · rw [if_pos h]
    exact ⟨h1, h⟩
  · rw [if_neg h]
    refine ⟨?_, h2.le⟩
    rw [show flog2Diff r + 1 - 1 = flog2Diff r by ring]
    exact not_le.mp h

theorem clog2s_eq_of (r : ℚ) (k : ℤ) (h1 : 2 ^ (k - 1) ≤ r)
    (h2 : r < 2 ^ k) : clog2s r = k := by
  have hr : 0 < r := lt_of_lt_of_le (zpow_pos two_pos _) h1
  obtain ⟨c1, c2⟩ := clog2s_spec r hr
  have hck : clog2s r - 1 < k :=
    (zpow_lt_zpow_iff_right₀ one_lt_two).mp (lt_of_le_of_lt c1 h2)
  have hkc : k - 1 < clog2s r :=
    (zpow_lt_zpow_iff_right₀ one_lt_two).mp (lt_of_le_of_lt h1 c2)
  omega

theorem clog2w_eq_of (r : ℚ) (k : ℤ) (h1 : 2 ^ (k - 1) < r)
    (h2 : r ≤ 2 ^ k) : clog2w r = k := by
  have hr : 0 < r := lt_trans (zpow_pos two_pos _) h1
  obtain ⟨c1, c2⟩ := clog2w_spec r hr
  have hck : clog2w r - 1 < k :=
    (zpow_lt_zpow_iff_right₀ one_lt_two).mp (lt_of_lt_of_le c1 h2)
  have hkc : k - 1 < clog2w r :=
    (zpow_lt_zpow_iff_right₀ one_lt_two).mp (lt_of_lt_of_le h1 c2)
  omega

/-- Adding `us<5, 5> + us<4, 4>` evaluates to `us<6, 6>`
(`max = 46 < 2^6`). -/
theorem add_us5_us4_eval : ((⟨5, 5, false⟩ : prop).add ⟨4, 4, false⟩) =
    Except.ok ⟨6, 6, false⟩ := by
  have h1 : clog2s 46 = 6 := clog2s_eq_of 46 6 (by norm_num) (by norm_num)
  simp only [prop.add, prop.max, prop.min, prop.fl, prop.sbit, create_obj,
    mkProp]
  norm_num [h1]

/-- Subtracting `us<5, 5> - us<4, 4>` evaluates to `2s<6, 5>`
(range `[-15, 31]`). -/
theorem sub_us5_us4_eval : ((⟨5, 5, false⟩ : prop).sub ⟨4, 4, false⟩) =
    Except.ok ⟨6, 5, true⟩ := by
  have h1 : clog2s 31 = 5 := clog2s_eq_of 31 5 (by norm_num) (by norm_num)
  have h2 : clog2w 15 = 4 := clog2w_eq_of 15 4 (by norm_num) (by norm_num)
  simp only [prop.sub, prop.max, prop.min, prop.fl, prop.sbit, create_obj,
    mkProp]
  norm_num [h1, h2]

/-- Multiplying `us<5, 5> * us<4, 4>` evaluates to `us<9, 9>`
(`max = 465 < 2^9`). -/
theorem mul_us5_us4_eval : ((⟨5, 5, false⟩ : prop).mul ⟨4, 4, false⟩) =
    Except.ok ⟨9, 9, false⟩ := by
  have h1 : clog2s 465 = 9 := clog2s_eq_of 465 9 (by norm_num) (by norm_num)
  simp only [prop.mul, prop.max, prop.min, prop.fl, prop.sbit, create_obj,
    mkProp]
  norm_num [h1]

/-- Adding `2s<4, 3> + 2s<3, 0>` evaluates to `2s<7, 4>`
(range `[-9, 31/4]`). -/
theorem add_2s4_2s3_eval : ((⟨4, 3, true⟩ : prop).add ⟨3, 0, true⟩) =
    Except.ok ⟨7, 4, true⟩ := by
  have h1 : clog2s (31 / 4) = 3 :=
    clog2s_eq_of (31 / 4) 3 (by norm_num) (by norm_num)
  have h2 : clog2w 9 = 4 := clog2w_eq_of 9 4 (by norm_num) (by norm_num)
  simp only [prop.add, prop.max, prop.min, prop.fl, prop.sbit, create_obj,
    mkProp]
  norm_num [h1, h2]

/-! ### Structural facts about formats -/

theorem prop.min_nonpos (p : prop) : p.min ≤ 0 := by
  unfold prop.min
  split
  · have : (0 : ℚ) < 2 ^ p.integer_length := zpow_pos two_pos _
    linarith
  · exact le_rfl

theorem prop.max_pos_iff (p : prop) :
    0 < p.max ↔ 1 ≤ p.word_length - p.sbit := by
  unfold prop.max
  have hg : (0 : ℚ) < 2 ^ (-p.fl) := zpow_pos two_pos _
  rw [mul_pos_iff_of_pos_right hg, sub_pos,
    show (1 : ℚ) = 2 ^ (0 : ℤ) by norm_num,
    zpow_lt_zpow_iff_right₀ one_lt_two]
  omega

theorem prop.max_nonneg_of_wl (p : prop) (h : 1 ≤ p.word_length) :
    0 ≤ p.max := by
  unfold prop.max
  have hg : (0 : ℚ) < 2 ^ (-p.fl) := zpow_pos two_pos _
  have h1 : (1 : ℚ) ≤ 2 ^ (p.word_length - p.sbit) := by
    apply one_le_zpow₀ one_le_two
    unfold prop.sbit
    split <;> omega
  nlinarith

/-- The most positive value lies on the grid of steps `2 ^ -fl`. -/
theorem prop.max_grid (p : prop) (h : 0 ≤ p.word_length - p.sbit) :
    ∃ n : ℤ, p.max = (n : ℚ) * 2 ^ (-p.fl) := by
  refine ⟨2 ^ (p.word_length - p.sbit).toNat - 1, ?_⟩
  unfold prop.max
  congr 1
  push_cast
  rw [← zpow_natCast (2 : ℚ), Int.toNat_of_nonneg h]

/-- The most negative value lies on the grid of steps `2 ^ -fl`. -/
theorem prop.min_grid (p : prop) (h : 0 ≤ p.word_length - p.sbit) :
    ∃ n : ℤ, p.min = (n : ℚ) * 2 ^ (-p.fl) := by
  unfold prop.min
  split
  · refine ⟨-(2 ^ (p.word_length - p.sbit).toNat), ?_⟩
    push_cast
    rw [← zpow_natCast (2 : ℚ), Int.toNat_of_nonneg h, neg_mul,
      ← zpow_add₀ (two_ne_zero (α := ℚ))]
    congr 2
    unfold prop.fl
    ring
  · exact ⟨0, by norm_num⟩

theorem grid_mono {v : ℚ} {f1 f2 : ℤ} (h : f1 ≤ f2)
    (hg : ∃ n : ℤ, v = (n : ℚ) * 2 ^ (-f1)) :
    ∃ n : ℤ, v = (n : ℚ) * 2 ^ (-f2) := by
  obtain ⟨n, hn⟩ := hg
  refine ⟨n * 2 ^ (f2 - f1).toNat, ?_⟩
  rw [hn]
  push_cast
  rw [← zpow_natCast (2 : ℚ), Int.toNat_of_nonneg (by omega : 0 ≤ f2 - f1),
    mul_assoc, ← zpow_add₀ (two_ne_zero (α := ℚ))]
  congr 2
  ring

theorem grid_add {v w : ℚ} {f : ℤ}
    (hv : ∃ n : ℤ, v = (n : ℚ) * 2 ^ (-f))
    (hw : ∃ n : ℤ, w = (n : ℚ) * 2 ^ (-f)) :
    ∃ n : ℤ, v + w = (n : ℚ) * 2 ^ (-f) := by
  obtain ⟨n, hn⟩ := hv
  obtain ⟨m, hm⟩ := hw
  exact ⟨n + m, by rw [hn, hm]; push_cast; ring⟩

theorem grid_neg {v : ℚ} {f : ℤ}
    (hv : ∃ n : ℤ, v = (n : ℚ) * 2 ^ (-f)) :
    ∃ n : ℤ, -v = (n : ℚ) * 2 ^ (-f) := by
  obtain ⟨n, hn⟩ := hv
  exact ⟨-n, by rw [hn]; push_cast; ring⟩

theorem grid_mul {v w : ℚ} {f1 f2 : ℤ}
    (hv : ∃ n : ℤ, v = (n : ℚ) * 2 ^ (-f1))
    (hw : ∃ n : ℤ, w = (n : ℚ) * 2 ^ (-f2)) :
    ∃ n : ℤ, v * w = (n : ℚ) * 2 ^ (-(f1 + f2)) := by
  obtain ⟨n, hn⟩ := hv
  obtain ⟨m, hm⟩ := hw
  refine ⟨n * m, ?_⟩
  rw [hn, hm, show -(f1 + f2) = -f1 + -f2 by ring,
    zpow_add₀ (two_ne_zero (α := ℚ))]
  push_cast
  ring

theorem grid_max {v w : ℚ} {f : ℤ}
    (hv : ∃ n : ℤ, v = (n : ℚ) * 2 ^ (-f))
    (hw : ∃ n : ℤ, w = (n : ℚ) * 2 ^ (-f)) :
    ∃ n : ℤ, Max.max v w = (n : ℚ) * 2 ^ (-f) := by
  obtain ⟨n, hn⟩ := hv
  obtain ⟨m, hm⟩ := hw
  refine ⟨Max.max n m, ?_⟩
  rw [hn, hm, ← max_mul_of_nonneg _ _ (zpow_pos two_pos (-f)).le]
  norm_cast

/-! ### Evaluation equations and range soundness of `_create_obj` -/

theorem create_obj_eq_zero (maxv : ℚ) (fl : ℤ) (hmax : 0 < maxv) :
    create_obj maxv 0 fl =
      mkProp (Max.max (clog2s maxv) (-128) + fl)
        (Max.max (clog2s maxv) (-128)) false := by
  simp only [create_obj]
  rw [if_neg (not_le.mpr hmax), if_neg (lt_irrefl 0)]
  simp

theorem create_obj_eq_neg (maxv minv : ℚ) (fl : ℤ) (hmax : 0 < maxv)
    (hmin : minv < 0) :
    create_obj maxv minv fl =
      mkProp (1 + Max.max (clog2s maxv) (clog2w (-minv)) + fl)
        (Max.max (clog2s maxv) (clog2w (-minv))) true := by
  simp only [create_obj]
  rw [if_neg (not_le.mpr hmax), if_neg (not_lt.mpr hmin.le)]
  simp [hmin.ne]

/-- If `maxv` is a positive multiple of the grid step `2 ^ -fl` and
`maxv < 2 ^ il`, then `il + fl ≥ 1` and `maxv` fits under the largest
value of an `il + fl`-bit magnitude field. -/
theorem result_bounds (il fl : ℤ) (maxv : ℚ) (n : ℤ)
    (hn : maxv = (n : ℚ) * 2 ^ (-fl)) (hpos : 0 < maxv)
    (hlt : maxv < 2 ^ il) :
    1 ≤ il + fl ∧ maxv ≤ ((2 : ℚ) ^ (il + fl) - 1) * 2 ^ (-fl) := by
  have hg : (0 : ℚ) < 2 ^ (-fl) := zpow_pos two_pos _
  have hnpos : 0 < n := by
    by_contra hc
    push_neg at hc
    have h1 : (n : ℚ) ≤ 0 := by exact_mod_cast hc
    have : maxv ≤ 0 := by
      rw [hn]
      exact mul_nonpos_iff.mpr (Or.inr ⟨h1, hg.le⟩)
    exact absurd this (not_le.mpr hpos)
  have hone : (2 : ℚ) ^ (-fl) ≤ maxv := by
    rw [hn]
    exact le_mul_of_one_le_left hg.le (by exact_mod_cast hnpos)
  have hfl_il : 1 ≤ il + fl := by
    have h3 : -fl < il :=
      (zpow_lt_zpow_iff_right₀ one_lt_two).mp (lt_of_le_of_lt hone hlt)
    omega
  have hm : (((il + fl).toNat : ℤ)) = il + fl :=
    Int.toNat_of_nonneg (by omega)
  have hcast : (2 : ℚ) ^ (il + fl) = ((2 ^ (il + fl).toNat : ℤ) : ℚ) := by
    rw [← hm, zpow_natCast]
    norm_cast
  have hnlt : n < 2 ^ (il + fl).toNat := by
    have h5 : (n : ℚ) < 2 ^ (il + fl) := by
      have h6 := mul_lt_mul_of_pos_right hlt (zpow_pos two_pos fl)
      rw [hn, mul_assoc, ← zpow_add₀ (two_ne_zero (α := ℚ)),
        neg_add_cancel, zpow_zero, mul_one] at h6
      rw [zpow_add₀ (two_ne_zero (α := ℚ))]
      exact h6
    rw [hcast] at h5
    exact_mod_cast h5
  refine ⟨hfl_il, ?_⟩
  have h7 : (n : ℚ) + 1 ≤ ((2 ^ (il + fl).toNat : ℤ) : ℚ) := by
    exact_mod_cast hnlt
  rw [← hcast] at h7
  rw [hn]
  have h8 : (n : ℚ) ≤ 2 ^ (il + fl) - 1 := by linarith
  exact mul_le_mul_of_nonneg_right h8 hg.le

/-- Range soundness of `_create_obj`: when the max side is a positive
grid value and the min side non-positive, the call succeeds and the
range of the derived format covers `[minv, maxv]`. -/
theorem create_obj_ok (maxv minv : ℚ) (fl : ℤ) (hpos : 0 < maxv)
    (hgrid : ∃ n : ℤ, maxv = (n : ℚ) * 2 ^ (-fl)) (hmin : minv ≤ 0) :
    ∃ z : prop, create_obj maxv minv fl = Except.ok z ∧
      z.fl = fl ∧ 1 ≤ z.word_length ∧ z.min ≤ minv ∧ maxv ≤ z.max := by
  obtain ⟨n, hn⟩ := hgrid
  rcases eq_or_lt_of_le hmin with hz | hneg
  · -- unsigned case: min side is zero
    set il := Max.max (clog2s maxv) (-128 : ℤ) with hil
    have hlt : maxv < 2 ^ il :=
      lt_of_lt_of_le (clog2s_spec maxv hpos).2
        (zpow_le_zpow_right₀ one_le_two (le_max_left _ _))
    obtain ⟨h1, h2⟩ := result_bounds il fl maxv n hn hpos hlt
    refine ⟨⟨il + fl, il, false⟩, ?_, ?_, ?_, ?_, ?_⟩
    · rw [hz, create_obj_eq_zero maxv fl hpos, mkProp,
        if_neg (by omega : ¬ il + fl < 1)]
    · simp [prop.fl, prop.sbit]
    · exact h1
    · rw [hz]
      simp [prop.min]
    · show maxv ≤ ((2 : ℚ) ^ (il + fl - (if false then (1 : ℤ) else 0)) - 1)
        * 2 ^ (-((il + fl) - (if false then (1 : ℤ) else 0) - il))
      simpa using h2
  · -- signed case: min side is strictly negative
    set il := Max.max (clog2s maxv) (clog2w (-minv)) with hil
    have hlt : maxv < 2 ^ il :=
      lt_of_lt_of_le (clog2s_spec maxv hpos).2
        (zpow_le_zpow_right₀ one_le_two (le_max_left _ _))
    obtain ⟨h1, h2⟩ := result_bounds il fl maxv n hn hpos hlt
    refine ⟨⟨1 + il + fl, il, true⟩, ?_, ?_, ?_, ?_, ?_⟩
    · rw [create_obj_eq_neg maxv minv fl hpos hneg, mkProp,
        if_neg (by omega : ¬ 1 + il + fl < 1)]
    · simp [prop.fl, prop.sbit]
      ring
    · show 1 ≤ 1 + il + fl
      omega
    · show (if true then -((2 : ℚ) ^ il) else 0) ≤ minv
      have hnm : -minv ≤ 2 ^ clog2w (-minv) :=
        (clog2w_spec (-minv) (by linarith)).2
      have : -minv ≤ 2 ^ il :=
        le_trans hnm (zpow_le_zpow_right₀ one_le_two (le_max_right _ _))
      simp only [if_pos]
      linarith
    · show maxv ≤ ((2 : ℚ) ^ (1 + il + fl - (if true then (1 : ℤ) else 0))
        - 1) * 2 ^ (-(1 + il + fl - (if true then (1 : ℤ) else 0) - il))
      have he1 : 1 + il + fl - (if true then (1 : ℤ) else 0) = il + fl := by
        simp only [if_true]
        omega
      rw [he1, show il + fl - il = fl by ring]
      exact h2

/-! ### Per-operation soundness -/

theorem add_ok (x y : prop) (hx : 0 < x.max) (hy : 0 < y.max) :
    ∃ z : prop, x.add y = Except.ok z ∧ 1 ≤ z.word_length ∧
      z.min ≤ x.min + y.min ∧ x.max + y.max ≤ z.max := by
  have hwx : 0 ≤ x.word_length - x.sbit := by
    have := (prop.max_pos_iff x).mp hx; omega
  have hwy : 0 ≤ y.word_length - y.sbit := by
    have := (prop.max_pos_iff y).mp hy; omega
  have hgx := grid_mono (le_max_left x.fl y.fl) (prop.max_grid x hwx)
  have hgy := grid_mono (le_max_right x.fl y.fl) (prop.max_grid y hwy)
  obtain ⟨z, hz, _, hwl, hmin, hmax⟩ :=
    create_obj_ok (x.max + y.max) (x.min + y.min) (Max.max x.fl y.fl)
      (add_pos hx hy) (grid_add hgx hgy)
      (add_nonpos x.min_nonpos y.min_nonpos)
  exact ⟨z, hz, hwl, hmin, hmax⟩

theorem sub_ok (x y : prop) (hx : 0 < x.max) (hy : 0 < y.max) :
    ∃ z : prop, x.sub y = Except.ok z ∧ 1 ≤ z.word_length ∧
      z.min ≤ x.min - y.max ∧ x.max - y.min ≤ z.max := by
  have hwx : 0 ≤ x.word_length - x.sbit := by
    have := (prop.max_pos_iff x).mp hx; omega
  have hwy : 0 ≤ y.word_length - y.sbit := by
    have := (prop.max_pos_iff y).mp hy; omega
  have hgx := grid_mono (le_max_left x.fl y.fl) (prop.max_grid x hwx)
  have hgy := grid_mono (le_max_right x.fl y.fl) (prop.min_grid y hwy)
  have hpos : 0 < x.max - y.min := by
    have := y.min_nonpos; linarith
  have hmin : x.min - y.max ≤ 0 := by
    have := x.min_nonpos; linarith
  obtain ⟨z, hz, _, hwl, hmin', hmax'⟩ :=
    create_obj_ok (x.max - y.min) (x.min - y.max) (Max.max x.fl y.fl)
      hpos (by
        have := grid_add hgx (grid_neg hgy)
        simpa [sub_eq_add_neg] using this) hmin
  exact ⟨z, hz, hwl, hmin', hmax'⟩

theorem mul_ok (x y : prop) (hx : 0 < x.max) (hy : 0 < y.max) :
    ∃ z : prop, x.mul y = Except.ok z ∧ 1 ≤ z.word_length ∧
      z.min ≤ Min.min (x.max * y.min) (x.min * y.max) ∧
      Max.max (x.max * y.max) (x.min * y.min) ≤ z.max := by
  have hwx : 0 ≤ x.word_length - x.sbit := by
    have := (prop.max_pos_iff x).mp hx; omega
  have hwy : 0 ≤ y.word_length - y.sbit := by
    have := (prop.max_pos_iff y).mp hy; omega
  have hgrid := grid_max (grid_mul (prop.max_grid x hwx) (prop.max_grid y hwy))
    (grid_mul (prop.min_grid x hwx) (prop.min_grid y hwy))
  have hpos : 0 < Max.max (x.max * y.max) (x.min * y.min) :=
    lt_of_lt_of_le (mul_pos hx hy) (le_max_left _ _)
  have hmin : Min.min (x.max * y.min) (x.min * y.max) ≤ 0 :=
    le_trans (min_le_left _ _)
      (mul_nonpos_iff.mpr (Or.inl ⟨hx.le, y.min_nonpos⟩))
  obtain ⟨z, hz, _, hwl, hmin', hmax'⟩ :=
    create_obj_ok _ _ (x.fl + y.fl) hpos hgrid hmin
  exact ⟨z, hz, hwl, hmin', hmax'⟩

/-! ### Interval multiplication corner bounds -/

theorem corner_upper {xl xu yl yu a b : ℚ} (hxl : xl ≤ 0) (hyl : yl ≤ 0)
    (hxu : 0 ≤ xu) (hyu : 0 ≤ yu) (ha1 : xl ≤ a) (ha2 : a ≤ xu)
    (hb1 : yl ≤ b) (hb2 : b ≤ yu) :
    a * b ≤ Max.max (xu * yu) (xl * yl) := by
  rcases le_or_lt 0 a with h1 | h1 <;> rcases le_or_lt 0 b with h2 | h2
  · exact le_trans (by nlinarith) (le_max_left _ _)
  · exact le_trans (by nlinarith) (le_max_left _ _)
  · exact le_trans (by nlinarith) (le_max_left _ _)
  · exact le_trans (by nlinarith) (le_max_right _ _)

theorem corner_lower {xl xu yl yu a b : ℚ} (hxl : xl ≤ 0) (hyl : yl ≤ 0)
    (hxu : 0 ≤ xu) (hyu : 0 ≤ yu) (ha1 : xl ≤ a) (ha2 : a ≤ xu)
    (hb1 : yl ≤ b) (hb2 : b ≤ yu) :
    Min.min (xu * yl) (xl * yu) ≤ a * b := by
  rcases le_or_lt 0 a with h1 | h1 <;> rcases le_or_lt 0 b with h2 | h2
  · exact le_trans (min_le_left _ _) (by nlinarith)
  · exact le_trans (min_le_left _ _) (by nlinarith)
  · exact le_trans (min_le_right _ _) (by nlinarith)
  · exact le_trans (min_le_left _ _) (by nlinarith)

/-! ### Evaluation of the unary operations -/

theorem sbit_cases (p : prop) : p.sbit = 0 ∨ p.sbit = 1 := by
  unfold prop.sbit
  split <;> omega

theorem sqr_eval (x : prop) (h : 1 ≤ x.word_length) :
    x.sqr = Except.ok
      ⟨2 * x.integer_length + (if x.signed then 1 else 0) +
        2 * (x.word_length - x.sbit - x.integer_length),
       2 * x.integer_length + (if x.signed then 1 else 0), false⟩ := by
  have hs := sbit_cases x
  have hsb : (if x.signed then (1 : ℤ) else 0) = x.sbit := rfl
  unfold prop.sqr mkProp
  rw [if_neg (by rw [hsb]; omega)]

theorem prop.max_le_max {p r : prop} (hexp : p.fl = r.fl)
    (hw : p.word_length - p.sbit ≤ r.word_length - r.sbit) :
    p.max ≤ r.max := by
  unfold prop.max
  rw [← hexp]
  apply mul_le_mul_of_nonneg_right ?_ (zpow_pos two_pos _).le
  have := zpow_le_zpow_right₀ (one_le_two (α := ℚ)) hw
  linarith

/-! ### The claims -/

/-- C1: for formats `x`, `y` with positive `max_value` and any reals
`a ∈ [x.min, x.max]`, `b ∈ [y.min, y.max]`, the product `a * b` lies in
the range of the format derived by `__mul__`. -/
theorem mul_range_covers_products (x y : prop) (hx : 0 < x.max)
    (hy : 0 < y.max) (a b : ℚ) (ha1 : x.min ≤ a) (ha2 : a ≤ x.max)
    (hb1 : y.min ≤ b) (hb2 : b ≤ y.max) :
    ∃ z : prop, x.mul y = Except.ok z ∧ z.min ≤ a * b ∧ a * b ≤ z.max := by
  obtain ⟨z, hz, _, hmin, hmax⟩ := mul_ok x y hx hy
  refine ⟨z, hz, ?_, ?_⟩
  · exact le_trans hmin
      (corner_lower x.min_nonpos y.min_nonpos hx.le hy.le ha1 ha2 hb1 hb2)
  · exact le_trans
      (corner_upper x.min_nonpos y.min_nonpos hx.le hy.le ha1 ha2 hb1 hb2)
      hmax

/-- Witness for C1 at `x = 2s<4, 3>`, `y = 2s<3, 0>`, `a = 7`,
`b = -1`. -/
theorem mul_range_covers_products_witness :
    ∃ z : prop, (⟨4, 3, true⟩ : prop).mul ⟨3, 0, true⟩ = Except.ok z ∧
      z.min ≤ 7 * (-1 : ℚ) ∧ 7 * (-1 : ℚ) ≤ z.max := by
  refine mul_range_covers_products ⟨4, 3, true⟩ ⟨3, 0, true⟩ ?_ ?_ 7 (-1)
    ?_ ?_ ?_ ?_ <;>
    norm_num [prop.max, prop.min, prop.fl, prop.sbit]

/-- C6: for any format with `word_length ≥ 1`,
`min_value() ≤ max_value()`, and `min_value() = 0` iff unsigned. -/
theorem min_le_max_and_min_zero_iff_unsigned (p : prop)
    (h : 1 ≤ p.word_length) :
    p.min ≤ p.max ∧ (p.min = 0 ↔ p.signed = false) := by
  refine ⟨le_trans p.min_nonpos (p.max_nonneg_of_wl h), ?_⟩
  unfold prop.min
  cases hsg : p.signed
  · simp
  · have h2 : (0 : ℚ) < 2 ^ p.integer_length := zpow_pos two_pos _
    simp only [if_true]
    constructor
    · intro hc
      linarith
    · intro hc
      cases hc

/-- Witness for C6 at the format `2s<4, 3>`. -/
theorem min_le_max_and_min_zero_iff_unsigned_witness :
    (⟨4, 3, true⟩ : prop).min ≤ (⟨4, 3, true⟩ : prop).max ∧
      ((⟨4, 3, true⟩ : prop).min = 0 ↔
        (⟨4, 3, true⟩ : prop).signed = false) :=
  min_le_max_and_min_zero_iff_unsigned ⟨4, 3, true⟩ (by norm_num)

/-- C8: both constructors fail exactly when `word_length < 1`, and on
success store the three fields verbatim. -/
theorem constructor_invalid_iff (w i : ℤ) (s : Bool) :
    ((∃ e, mkProp w i s = Except.error e) ↔ w < 1) ∧
    (1 ≤ w → mkProp w i s = Except.ok ⟨w, i, s⟩) ∧
    ((∃ e, mkQ w i s = Except.error e) ↔ w < 1) ∧
    (1 ≤ w → mkQ w i s = Except.ok ⟨w, i, s⟩) := by
  unfold mkProp mkQ
  by_cases h : w < 1
  · rw [if_pos h, if_pos h]
    refine ⟨⟨fun _ => h, fun _ => ⟨_, rfl⟩⟩, ?_, ⟨fun _ => h, fun _ => ⟨_, rfl⟩⟩, ?_⟩ <;>
      · intro hc; omega
  · rw [if_neg h, if_neg h]
    refine ⟨⟨?_, fun hc => absurd hc h⟩, fun _ => rfl,
      ⟨?_, fun hc => absurd hc h⟩, fun _ => rfl⟩ <;>
      · rintro ⟨e, he⟩; cases he

/-- Witness for C8 at `word_length = 1, integer_length = 0,
signed = false` (an `integer_length` exceeding `word_length` also
succeeds, e.g. it is not validated). -/
theorem constructor_invalid_iff_witness :
    mkProp 1 0 false = Except.ok ⟨1, 0, false⟩ ∧
      mkQ 1 7 true = Except.ok ⟨1, 7, true⟩ :=
  ⟨(constructor_invalid_iff 1 0 false).2.1 (by norm_num),
   (constructor_invalid_iff 1 7 true).2.2.2 (by norm_num)⟩

/-- C10: `__add__` and `__mul__` derive the same format regardless of
operand order. -/
theorem add_mul_comm_formats (x y : prop) :
    x.add y = y.add x ∧ x.mul y = y.mul x := by
  constructor
  · unfold prop.add
    rw [add_comm x.max y.max, add_comm x.min y.min, max_comm x.fl y.fl]
  · unfold prop.mul
    rw [mul_comm x.max y.max, mul_comm x.min y.min, mul_comm x.max y.min,
      mul_comm x.min y.max, min_comm, add_comm x.fl y.fl]

/-- C4: `sqr` doubles the integer and fractional lengths (plus the sign
bit folded into the integer part), the result is unsigned, and its
minimum value is zero. -/
theorem sqr_spec (x : prop) (h : 1 ≤ x.word_length) :
    ∃ z : prop, x.sqr = Except.ok z ∧
      z.integer_length = 2 * x.integer_length +
        (if x.signed then 1 else 0) ∧
      z.fl = 2 * x.fl ∧
      z.word_length = z.integer_length + z.fl ∧
      z.signed = false ∧ z.min = 0 := by
  refine ⟨_, sqr_eval x h, rfl, ?_, ?_, rfl, rfl⟩
  · show 2 * x.integer_length + (if x.signed then 1 else 0) +
      2 * (x.word_length - x.sbit - x.integer_length) -
      (if false then (1 : ℤ) else 0) -
      (2 * x.integer_length + (if x.signed then 1 else 0)) = 2 * x.fl
    unfold prop.fl
    simp only [if_neg Bool.false_ne_true]
    ring
  · show 2 * x.integer_length + (if x.signed then 1 else 0) +
      2 * (x.word_length - x.sbit - x.integer_length) =
      2 * x.integer_length + (if x.signed then 1 else 0) +
      (2 * x.integer_length + (if x.signed then 1 else 0) +
        2 * (x.word_length - x.sbit - x.integer_length) -
        (if false then (1 : ℤ) else 0) -
        (2 * x.integer_length + (if x.signed then 1 else 0)))
    simp only [if_neg Bool.false_ne_true]
    ring

/-- Witness for C4 at the format `2s<10, 9>` (the docstring example:
its square is `us<19, 19>`). -/
theorem sqr_spec_witness :
    ∃ z : prop, (⟨10, 9, true⟩ : prop).sqr = Except.ok z ∧
      z.integer_length = 2 * (⟨10, 9, true⟩ : prop).integer_length +
        (if (⟨10, 9, true⟩ : prop).signed then 1 else 0) ∧
      z.fl = 2 * (⟨10, 9, true⟩ : prop).fl ∧
      z.word_length = z.integer_length + z.fl ∧
      z.signed = false ∧ z.min = 0 :=
  sqr_spec ⟨10, 9, true⟩ (by norm_num)

/-- C7: negating twice yields a format whose range covers the range of
the original format. -/
theorem neg_neg_range_covers (x : prop) (h : 1 ≤ x.word_length) :
    ∃ z1 z2 : prop, x.neg = Except.ok z1 ∧ z1.neg = Except.ok z2 ∧
      z2.min ≤ x.min ∧ x.max ≤ z2.max := by
  cases hsg : x.signed
  · refine ⟨⟨x.word_length + 1, x.integer_length, true⟩,
      ⟨x.word_length + 1 + 1, x.integer_length + 1, true⟩, ?_, ?_, ?_, ?_⟩
    · unfold prop.neg mkProp
      rw [hsg]
      simp only [Bool.false_eq_true, if_false]
      rw [if_neg (by omega)]
    · unfold prop.neg mkProp
      simp only [if_true]
      rw [if_neg (by omega)]
    · show (if true then -((2 : ℚ) ^ (x.integer_length + 1)) else 0) ≤ x.min
      unfold prop.min
      rw [hsg]
      simp only [if_true, Bool.false_eq_true, if_false]
      have : (0 : ℚ) < 2 ^ (x.integer_length + 1) := zpow_pos two_pos _
      linarith
    · apply prop.max_le_max
      · unfold prop.fl prop.sbit
        rw [hsg]
        simp only [if_true, Bool.false_eq_true, if_false]
        ring
      · unfold prop.sbit
        rw [hsg]
        simp only [if_true, Bool.false_eq_true, if_false]
        omega
  · refine ⟨⟨x.word_length + 1, x.integer_length + 1, true⟩,
      ⟨x.word_length + 1 + 1, x.integer_length + 1 + 1, true⟩, ?_, ?_, ?_, ?_⟩
    · unfold prop.neg mkProp
      rw [hsg]
      simp only [if_true]
      rw [if_neg (by omega)]
    · unfold prop.neg mkProp
      simp only [if_true]
      rw [if_neg (by omega)]
    · show (if true then -((2 : ℚ) ^ (x.integer_length + 1 + 1)) else 0) ≤
        x.min
      unfold prop.min
      rw [hsg]
      simp only [if_true]
      have h2 : (2 : ℚ) ^ x.integer_length ≤ 2 ^ (x.integer_length + 1 + 1) :=
        zpow_le_zpow_right₀ one_le_two (by omega)
      linarith
    · apply prop.max_le_max
      · unfold prop.fl prop.sbit
        rw [hsg]
        simp only [if_true]
        ring
      · unfold prop.sbit
        rw [hsg]
        simp only [if_true]
        omega

/-- Witness for C7 at the format `us<5, 5>` (the docstring example:
`-x` is `2s<6, 5>`). -/
theorem neg_neg_range_covers_witness :
    ∃ z1 z2 : prop, (⟨5, 5, false⟩ : prop).neg = Except.ok z1 ∧
      z1.neg = Except.ok z2 ∧ z2.min ≤ (⟨5, 5, false⟩ : prop).min ∧
      (⟨5, 5, false⟩ : prop).max ≤ z2.max :=
  neg_neg_range_covers ⟨5, 5, false⟩ (by norm_num)

/-- C9: the algebra is closed — every operation, applied to formats
satisfying its natural precondition, produces a format whose
`word_length` is at least 1, so the constructor check never fires. -/
theorem ops_closed_word_length :
    (∀ x : prop, 1 ≤ x.word_length →
      ∃ z, x.neg = Except.ok z ∧ 1 ≤ z.word_length) ∧
    (∀ x : prop, 1 ≤ x.word_length →
      ∃ z, x.abs = Except.ok z ∧ 1 ≤ z.word_length) ∧
    (∀ x : prop, 1 ≤ x.word_length →
      ∃ z, x.sqr = Except.ok z ∧ 1 ≤ z.word_length) ∧
    (∀ x y : prop, 0 < x.max → 0 < y.max →
      ∃ z, x.add y = Except.ok z ∧ 1 ≤ z.word_length) ∧
    (∀ x y : prop, 0 < x.max → 0 < y.max →
      ∃ z, x.sub y = Except.ok z ∧ 1 ≤ z.word_length) ∧
    (∀ x y : prop, 0 < x.max → 0 < y.max →
      ∃ z, x.mul y = Except.ok z ∧ 1 ≤ z.word_length) := by
  refine ⟨?_, ?_, ?_, ?_, ?_, ?_⟩
  · intro x h
    cases hsg : x.signed
    · refine ⟨⟨x.word_length + 1, x.integer_length, true⟩, ?_, ?_⟩
      · unfold prop.neg mkProp
        rw [hsg]
        simp only [Bool.false_eq_true, if_false]
        rw [if_neg (by omega)]
      · show 1 ≤ x.word_length + 1
        omega
    · refine ⟨⟨x.word_length + 1, x.integer_length + 1, true⟩, ?_, ?_⟩
      · unfold prop.neg mkProp
        rw [hsg]
        simp only [if_true]
        rw [if_neg (by omega)]
      · show 1 ≤ x.word_length + 1
        omega
  · intro x h
    cases hsg : x.signed
    · refine ⟨x, ?_, h⟩
      unfold prop.abs
      rw [hsg]
      simp
    · refine ⟨⟨x.word_length, x.integer_length + 1, false⟩, ?_, h⟩
      unfold prop.abs mkProp
      rw [hsg]
      simp only [if_true]
      rw [if_neg (by omega)]
  · intro x h
    refine ⟨_, sqr_eval x h, ?_⟩
    show 1 ≤ 2 * x.integer_length + (if x.signed then 1 else 0) +
      2 * (x.word_length - x.sbit - x.integer_length)
    rw [show (if x.signed then (1 : ℤ) else 0) = x.sbit from rfl]
    have := sbit_cases x
    omega
  · intro x y hx hy
    obtain ⟨z, hz, hwl, _, _⟩ := add_ok x y hx hy
    exact ⟨z, hz, hwl⟩
  · intro x y hx hy
    obtain ⟨z, hz, hwl, _, _⟩ := sub_ok x y hx hy
    exact ⟨z, hz, hwl⟩
  · intro x y hx hy
    obtain ⟨z, hz, hwl, _, _⟩ := mul_ok x y hx hy
    exact ⟨z, hz, hwl⟩

/-- Witness for C9 at the formats `us<5, 5>`, `us<4, 4>` and
`2s<4, 3>`. -/
theorem ops_closed_word_length_witness :
    (∃ z, (⟨5, 5, false⟩ : prop).neg = Except.ok z ∧
      1 ≤ z.word_length) ∧
    (∃ z, (⟨4, 3, true⟩ : prop).abs = Except.ok z ∧
      1 ≤ z.word_length) ∧
    (∃ z, (⟨4, 3, true⟩ : prop).sqr = Except.ok z ∧
      1 ≤ z.word_length) ∧
    (∃ z, (⟨5, 5, false⟩ : prop).add ⟨4, 4, false⟩ = Except.ok z ∧
      1 ≤ z.word_length) ∧
    (∃ z, (⟨5, 5, false⟩ : prop).sub ⟨4, 4, false⟩ = Except.ok z ∧
      1 ≤ z.word_length) ∧
    (∃ z, (⟨5, 5, false⟩ : prop).mul ⟨4, 4, false⟩ = Except.ok z ∧
      1 ≤ z.word_length) := by
  have hx : 0 < (⟨5, 5, false⟩ : prop).max := by
    norm_num [prop.max, prop.fl, prop.sbit]
  have hy : 0 < (⟨4, 4, false⟩ : prop).max := by
    norm_num [prop.max, prop.fl, prop.sbit]
  exact ⟨ops_closed_word_length.1 ⟨5, 5, false⟩ (by norm_num),
    ops_closed_word_length.2.1 ⟨4, 3, true⟩ (by norm_num),
    ops_closed_word_length.2.2.1 ⟨4, 3, true⟩ (by norm_num),
    ops_closed_word_length.2.2.2.1 _ _ hx hy,
    ops_closed_word_length.2.2.2.2.1 _ _ hx hy,
    ops_closed_word_length.2.2.2.2.2 _ _ hx hy⟩

/-- C2 counterexample: the signed one-bit format `2s<1, 1>` is
constructible (`word_length ≥ 1`) yet its `max_value()` is `0`, not
positive, and adding two such formats reaches the `math.log`
domain-error branch of `_create_obj`. -/
theorem signed_one_bit_max_zero :
    ¬ (0 < (⟨1, 1, true⟩ : prop).max) ∧
    (⟨1, 1, true⟩ : prop).add ⟨1, 1, true⟩ =
      Except.error "math domain error" := by
  constructor
  · norm_num [prop.max, prop.fl, prop.sbit]
  · unfold prop.add
    norm_num [prop.max, prop.min, prop.fl, prop.sbit, create_obj]

/-- C2 amended: `max_value() > 0` holds exactly for the formats whose
magnitude field is non-empty (`word_length - signed ≥ 1`, i.e. any
unsigned format, or a signed format with `word_length ≥ 2`), and for two
operands with positive `max_value` the binary operations never reach the
domain-error branch. -/
theorem max_pos_and_no_domain_error :
    (∀ p : prop, p.sbit + 1 ≤ p.word_length → 0 < p.max) ∧
    (∀ x y : prop, 0 < x.max → 0 < y.max →
      (∃ z, x.add y = Except.ok z) ∧ (∃ z, x.sub y = Except.ok z) ∧
      (∃ z, x.mul y = Except.ok z)) := by
  constructor
  · intro p hp
    exact (prop.max_pos_iff p).mpr (by omega)
  · intro x y hx hy
    obtain ⟨z1, h1, _⟩ := add_ok x y hx hy
    obtain ⟨z2, h2, _⟩ := sub_ok x y hx hy
    obtain ⟨z3, h3, _⟩ := mul_ok x y hx hy
    exact ⟨⟨z1, h1⟩, ⟨z2, h2⟩, ⟨z3, h3⟩⟩

/-- C3 counterexample: the `format()` string of `us<5, 5> + us<4, 4>`
carries a space after the comma (`"us<6, 6>"`), so it is not the
space-free string `"us<6,6>"` the claim asserts. -/
theorem concrete_format_strings_cex :
    ((⟨5, 5, false⟩ : prop).add ⟨4, 4, false⟩).map prop.format ≠
      Except.ok "us<6,6>" := by
  rw [add_us5_us4_eval]
  intro hc
  rw [Except.map] at hc
  injection hc with h2
  exact absurd h2 (by decide)

/-- C3 amended: the derived formats are as claimed, with the `format()`
strings spelled as the source prints them — a space after the comma. -/
theorem concrete_format_strings :
    ((⟨5, 5, false⟩ : prop).add ⟨4, 4, false⟩).map prop.format =
      Except.ok "us<6, 6>" ∧
    ((⟨5, 5, false⟩ : prop).sub ⟨4, 4, false⟩).map prop.format =
      Except.ok "2s<6, 5>" ∧
    ((⟨5, 5, false⟩ : prop).mul ⟨4, 4, false⟩).map prop.format =
      Except.ok "us<9, 9>" ∧
    ((⟨4, 3, true⟩ : prop).add ⟨3, 0, true⟩).map prop.format =
      Except.ok "2s<7, 4>" := by
  rw [add_us5_us4_eval, sub_us5_us4_eval, mul_us5_us4_eval,
    add_2s4_2s3_eval]
  refine ⟨?_, ?_, ?_, ?_⟩ <;> · rw [Except.map]; exact congrArg Except.ok (by decide)

/-- C5: `q.float` fails exactly when the raw pattern is outside
`[0, 2^word_length - 1]`; otherwise it returns the two-complement
reinterpretation scaled by `2^-fractional_length` — including the five
concrete examples of the doctest. -/
theorem quantizer_decode_spec :
    (∀ (f : q) (raw : ℤ), 1 ≤ f.word_length →
      (((∃ e, f.float raw = Except.error e) ↔
          raw < 0 ∨ 2 ^ f.word_length.toNat - 1 < raw) ∧
        (0 ≤ raw → raw ≤ 2 ^ f.word_length.toNat - 1 →
          f.float raw = Except.ok
            ((((if f.signed = true ∧ 2 ^ (f.word_length - 1).toNat ≤ raw
                then raw - 2 ^ f.word_length.toNat else raw) : ℤ) : ℚ) *
              2 ^ (-(if f.signed = true
                then f.word_length - 1 - f.integer_length
                else f.word_length - f.integer_length)))))) ∧
    q.float ⟨4, 2, false⟩ 0 = Except.ok 0 ∧
    q.float ⟨4, 2, false⟩ 5 = Except.ok (5 / 4) ∧
    q.float ⟨4, 2, false⟩ 15 = Except.ok (15 / 4) ∧
    q.float ⟨4, 2, true⟩ 8 = Except.ok (-4) ∧
    q.float ⟨4, 2, true⟩ 15 = Except.ok (-(1 / 2)) := by
  refine ⟨?_, ?_, ?_, ?_, ?_, ?_⟩
  · intro f raw h
    have hw0 : (0 : ℤ) ≤ f.word_length := by omega
    have hw1 : (0 : ℤ) ≤ f.word_length - 1 := by omega
    have hcast : (2 : ℚ) ^ f.word_length = (2 : ℚ) ^ f.word_length.toNat := by
      rw [← zpow_natCast (2 : ℚ) f.word_length.toNat,
        Int.toNat_of_nonneg hw0]
    have hcast1 : (2 : ℚ) ^ (f.word_length - 1) =
        (2 : ℚ) ^ (f.word_length - 1).toNat := by
      rw [← zpow_natCast (2 : ℚ) (f.word_length - 1).toNat,
        Int.toNat_of_nonneg hw1]
    have hqiff : ((2 : ℚ) ^ f.word_length - 1 < (raw : ℚ)) ↔
        (2 ^ f.word_length.toNat - 1 < raw) := by
      rw [hcast]
      exact_mod_cast Iff.rfl
    have hsiff : ((2 : ℚ) ^ (f.word_length - 1) ≤ (raw : ℚ)) ↔
        (2 ^ (f.word_length - 1).toNat ≤ raw) := by
      rw [hcast1]
      exact_mod_cast Iff.rfl
    by_cases h1 : raw < 0
    · refine ⟨⟨fun _ => Or.inl h1,
        fun _ => ⟨"Value must be non-negative!", ?_⟩⟩, fun h3 _ => by omega⟩
      simp only [q.float]
      rw [if_pos h1]
    · by_cases h2 : 2 ^ f.word_length.toNat - 1 < raw
      · have h2q : (2 : ℚ) ^ f.word_length - 1 < (raw : ℚ) := hqiff.mpr h2
        refine ⟨⟨fun _ => Or.inr h2,
          fun _ => ⟨"Value exceeds the largest raw pattern", ?_⟩⟩,
          fun _ h4 => by omega⟩
        simp only [q.float]
        rw [if_neg h1, if_pos h2q]
      · have h2q : ¬ ((2 : ℚ) ^ f.word_length - 1 < (raw : ℚ)) :=
          fun hc => h2 (hqiff.mp hc)
        have hsub : ((raw - 2 ^ f.word_length.toNat : ℤ) : ℚ) =
            (raw : ℚ) - 2 ^ f.word_length := by
          push_cast
          rw [hcast]
        constructor
        · constructor
          · rintro ⟨e, he⟩
            simp only [q.float] at he
            rw [if_neg h1, if_neg h2q] at he
            cases he
          · rintro (hc | hc) <;> omega
        · intro _ _
          cases hsg : f.signed
          · simp only [q.float, hsg, Bool.false_eq_true, false_and,
              if_false]
            rw [if_neg h1, if_neg h2q]
          · simp only [q.float, hsg, true_and, if_true]
            rw [if_neg h1, if_neg h2q]
            by_cases hb : 2 ^ (f.word_length - 1).toNat ≤ raw
            · rw [if_pos hb, if_pos (hsiff.mpr hb), hsub]
            · rw [if_neg hb, if_neg (fun hc => hb (hsiff.mp hc))]
  · norm_num [q.float]
  · norm_num [q.float]
  · norm_num [q.float]
  · norm_num [q.float]
  · norm_num [q.float]

/-- Witness for C5 at the unsigned format `(4, 2)` and the raw value
`5`, exercising both the error characterisation and the decode
formula. -/
theorem quantizer_decode_spec_witness :
    ((∃ e, q.float ⟨4, 2, false⟩ 5 = Except.error e) ↔
      (5 : ℤ) < 0 ∨
        2 ^ (⟨4, 2, false⟩ : q).word_length.toNat - 1 < (5 : ℤ)) ∧
    ((0 : ℤ) ≤ 5 →
      (5 : ℤ) ≤ 2 ^ (⟨4, 2, false⟩ : q).word_length.toNat - 1 →
      q.float ⟨4, 2, false⟩ 5 = Except.ok
        ((((if (⟨4, 2, false⟩ : q).signed = true ∧
            2 ^ ((⟨4, 2, false⟩ : q).word_length - 1).toNat ≤ (5 : ℤ)
            then 5 - 2 ^ (⟨4, 2, false⟩ : q).word_length.toNat
            else (5 : ℤ)) : ℤ) : ℚ) *
          2 ^ (-(if (⟨4, 2, false⟩ : q).signed = true
            then (⟨4, 2, false⟩ : q).word_length - 1 -
              (⟨4, 2, false⟩ : q).integer_length
            else (⟨4, 2, false⟩ : q).word_length -
              (⟨4, 2, false⟩ : q).integer_length)))) :=
  quantizer_decode_spec.1 ⟨4, 2, false⟩ 5 (by norm_num)

/-- Witness for the amended C2 at `us<5, 5>` and `us<4, 4>`. -/
theorem max_pos_and_no_domain_error_witness :
    0 < (⟨5, 5, false⟩ : prop).max ∧
    ((∃ z, (⟨5, 5, false⟩ : prop).add ⟨4, 4, false⟩ = Except.ok z) ∧
     (∃ z, (⟨5, 5, false⟩ : prop).sub ⟨4, 4, false⟩ = Except.ok z) ∧
     (∃ z, (⟨5, 5, false⟩ : prop).mul ⟨4, 4, false⟩ = Except.ok z)) := by
  have hx : (⟨5, 5, false⟩ : prop).sbit + 1 ≤
      (⟨5, 5, false⟩ : prop).word_length := by
    norm_num [prop.sbit]
  refine ⟨max_pos_and_no_domain_error.1 ⟨5, 5, false⟩ hx,
    max_pos_and_no_domain_error.2 _ _
      (max_pos_and_no_domain_error.1 ⟨5, 5, false⟩ hx)
      (max_pos_and_no_domain_error.1 ⟨4, 4, false⟩ (by norm_num [prop.sbit]))⟩

end Fixedpoint
